import Mathlib

/-!
# Verification of the go-ethereum ABI `Method` codec

A shallow embedding of `accounts/abi/method.go` (which appears in two
variants in the repository) together with the parts of the ABI codec it
depends on (type descriptors, word codec, `toGoType`, destination
handling), the latter modelled from the specification since their source
files are not part of the repository snapshot.

Bytes are naturals below 256; 32-byte words are big-endian.
-/

namespace Abi

/-- A byte is modelled as a natural number (values kept below 256 by the
encoders). -/
abbrev Byte := Nat

/-- Big-endian encoding of `n` into exactly `k` bytes (most significant
first), truncating modulo `256^k`. -/
def natToBE : Nat → Nat → List Byte
  | 0, _ => []
  | k + 1, n => natToBE k (n / 256) ++ [n % 256]

/-- A 32-byte big-endian word. -/
def beWord (n : Nat) : List Byte := natToBE 32 n

/-- Big-endian interpretation of a byte list as a natural number. -/
def bytesToNat (bs : List Byte) : Nat := bs.foldl (fun acc b => acc * 256 + b) 0

/-- Right-pad a byte list with zeros to a multiple of 32 bytes. -/
def rightPad32 (bs : List Byte) : List Byte :=
  bs ++ List.replicate ((32 - bs.length % 32) % 32) 0

/-- Modelled from the spec: the ABI type descriptor (`Type` in the source
package, whose file is not in the snapshot).  `arrayTy` is the source's
`ArrayTy` (fixed array) with `size` the element count. -/
inductive AbiType : Type
  | uintTy (bits : Nat)
  | intTy (bits : Nat)
  | boolTy
  | addressTy
  | fixedBytesTy (n : Nat)
  | bytesTy
  | stringTy
  | arrayTy (size : Nat) (elem : AbiType)
deriving DecidableEq, Repr

/-- Modelled from the spec: `Type.requiresLengthPrefix` — true for the
string and bytes kinds, which are stored in the tail behind an offset. -/
def lengthPrefixed : AbiType → Bool
  | .bytesTy => true
  | .stringTy => true
  | _ => false

/-- The source's `Type.T == ArrayTy` test. -/
def isArrayTy : AbiType → Bool
  | .arrayTy _ _ => true
  | _ => false

/-- The source's `Type.Size` field (element count for fixed arrays). -/
def arraySize : AbiType → Nat
  | .arrayTy k _ => k
  | _ => 0

/-- Modelled from the spec: well-formedness invariants of parsed types
(§3 of the specification): integer widths are positive multiples of 8 up
to 256, fixed-bytes widths lie in 1..32, fixed arrays are non-empty. -/
def AbiType.wf : AbiType → Bool
  | .uintTy b => 0 < b && b ≤ 256 && b % 8 = 0
  | .intTy b => 0 < b && b ≤ 256 && b % 8 = 0
  | .fixedBytesTy n => 1 ≤ n && n ≤ 32
  | .arrayTy k e => 1 ≤ k && e.wf
  | _ => true

/-- Modelled from the spec: decoded/host values handed to the codec
(`interface{}` values in the source). -/
inductive Value : Type
  | uintV (n : Nat)
  | intV (z : Int)
  | boolV (b : Bool)
  | addrV (bs : List Byte)
  | fbytesV (bs : List Byte)
  | bytesV (bs : List Byte)
  | strV (s : List Byte)
  | arrV (vs : List Value)
deriving Repr

/-- The `Argument` of the ABI package: a name tied to a type (the `Indexed`
flag plays no role in `method.go` and is omitted). -/
structure Argument where
  name : String
  type : AbiType
deriving DecidableEq, Repr

/-- The `Method` of `method.go`: name, constness, inputs and outputs. -/
structure Method where
  name : String
  const : Bool
  inputs : List Argument
  outputs : List Argument
deriving DecidableEq, Repr

/-- Error kinds signalled by the codec (§7 of the specification; the Go
code returns `error` values with these messages). -/
inductive Err : Type
  | nonPointer
  | unpackKind
  | insufficientElements (want got : Nat)
  | truncated (actual required : Nat)
  | badBool
  | arityMismatch (got want : Nat)
  | packFailure
  | unsupported
deriving DecidableEq, Repr

/-- Modelled from the spec: the scalar word packers of §4.2 together
with the length-prefixed encodings of `bytes`/`string` — every non-array
case of `Type.pack`.  Returns `none` on a host-value/ABI-type mismatch
or an out-of-range value. -/
def packScalar : AbiType → Value → Option (List Byte)
  | .uintTy bits, .uintV n =>
      if n < 2 ^ bits then some (beWord n) else none
  | .intTy bits, .intV z =>
      if -(2 ^ (bits - 1) : Int) ≤ z ∧ z < (2 ^ (bits - 1) : Int) then
        some (beWord (z % (2 ^ 256 : Int)).toNat)
      else none
  | .boolTy, .boolV b => some (beWord (if b then 1 else 0))
  | .addressTy, .addrV bs =>
      if bs.length = 20 then some (List.replicate 12 0 ++ bs) else none
  | .fixedBytesTy n, .fbytesV bs =>
      if bs.length = n ∧ n ≤ 32 then some (bs ++ List.replicate (32 - n) 0) else none
  | .bytesTy, .bytesV bs => some (beWord bs.length ++ rightPad32 bs)
  | .stringTy, .strV s => some (beWord s.length ++ rightPad32 s)
  | _, _ => none

/-- Concatenated encodings of fixed-array elements (no length prefix).
The modelled fragment covers fixed arrays of static scalar elements
(§4.4 of the specification; nested and dynamic element types are the
spec's open question (a) and fall outside the fragment). -/
def packElems (e : AbiType) : List Value → Option (List Byte)
  | [] => some []
  | v :: vs => do
      let b ← packScalar e v
      let rest ← packElems e vs
      pure (b ++ rest)

/-- Modelled from the spec: `Type.pack` (word codec plus static tuple
layout, §4.2/§4.3) — the per-value encoder `method.pack` calls. -/
def packValue : AbiType → Value → Option (List Byte)
  | .arrayTy k e, .arrV vs =>
      if vs.length = k then packElems e vs else none
  | .arrayTy _ _, _ => none
  | t, v => packScalar t v

/-- The source's `packNum`: a 32-byte big-endian offset/length word. -/
def packNum (n : Nat) : List Byte := beWord n

/-- The loop body of `Method.pack` (source lines 244-267): walks the
(input, argument) pairs keeping the `ret` and `variableInput`
accumulators exactly as the Go code does. -/
def packLoop (nInputs : Nat) :
    List (Argument × Value) → List Byte → List Byte → Except Err (List Byte)
  | [], ret, variableInput => .ok (ret ++ variableInput)
  | (input, a) :: rest, ret, variableInput =>
    match packValue input.type a with
    | none => .error .packFailure
    | some packed =>
      if lengthPrefixed input.type then
        packLoop nInputs rest
          (ret ++ packNum (nInputs * 32 + variableInput.length))
          (variableInput ++ packed)
      else
        packLoop nInputs rest (ret ++ packed) variableInput

/-- The source's `Method.pack`: arity check, then the head/tail loop. -/
def Method.pack (m : Method) (args : List Value) : Except Err (List Byte) :=
  if args.length = m.inputs.length then
    packLoop m.inputs.length (m.inputs.zip args) [] []
  else
    .error (.arityMismatch args.length m.inputs.length)

/-- Head bytes of the claimed layout: static slots contribute their
direct encoding, dynamic slots a 32-byte offset word whose value is
`32 * nInputs` plus the tail bytes accumulated so far (`tailLen`). -/
def headOf (nInputs : Nat) (tailLen : Nat) :
    List (Argument × Value) → Option (List Byte)
  | [] => some []
  | (input, a) :: rest => do
    let p ← packValue input.type a
    if lengthPrefixed input.type then
      let h ← headOf nInputs (tailLen + p.length) rest
      pure (packNum (nInputs * 32 + tailLen) ++ h)
    else
      let h ← headOf nInputs tailLen rest
      pure (p ++ h)

/-- Tail bytes of the claimed layout: the payloads of the dynamic slots
in declaration order. -/
def tailOf : List (Argument × Value) → Option (List Byte)
  | [] => some []
  | (input, a) :: rest => do
    let p ← packValue input.type a
    let t ← tailOf rest
    if lengthPrefixed input.type then pure (p ++ t) else pure t

/-- Modelled from the spec: the dynamic-value read of `toGoType` — the
head slot at `index` holds an offset, the tail holds a length word
followed by the payload. -/
def readDynamic (index : Nat) (output : List Byte) : Except Err (List Byte) :=
  let offset := bytesToNat ((output.drop index).take 32)
  if offset + 32 > output.length then .error (.truncated output.length (offset + 32))
  else
    let len := bytesToNat ((output.drop offset).take 32)
    if offset + 32 + len > output.length then
      .error (.truncated output.length (offset + 32 + len))
    else .ok ((output.drop (offset + 32)).take len)

/-- Modelled from the spec: the non-array cases of `toGoType` — decode a
scalar whose head slot starts at byte `index` (§4.2/§4.4).  Bounds are
checked, missing bytes yield *truncated* errors. -/
def scalarDecode (index : Nat) (t : AbiType) (output : List Byte) : Except Err Value :=
  if index + 32 > output.length then .error (.truncated output.length (index + 32))
  else
    match t with
    | .uintTy _ => .ok (.uintV (bytesToNat ((output.drop index).take 32)))
    | .intTy _ =>
        let n := bytesToNat ((output.drop index).take 32)
        .ok (.intV (if n < 2 ^ 255 then (n : Int) else (n : Int) - 2 ^ 256))
    | .boolTy =>
        let n := bytesToNat ((output.drop index).take 32)
        if n = 0 then .ok (.boolV false)
        else if n = 1 then .ok (.boolV true)
        else .error .badBool
    | .addressTy => .ok (.addrV (((output.drop index).take 32).drop 12))
    | .fixedBytesTy nb => .ok (.fbytesV (((output.drop index).take 32).take nb))
    | .bytesTy => do
        let payload ← readDynamic index output
        pure (.bytesV payload)
    | .stringTy => do
        let payload ← readDynamic index output
        pure (.strV payload)
    | .arrayTy _ _ => .error .unsupported

/-- Fixed-array elements are read from `count` consecutive head words
(the modelled fragment: static scalar elements, §4.4). -/
def elemsDecode (e : AbiType) :
    Nat → Nat → List Byte → Except Err (List Value)
  | 0, _, _ => .ok []
  | count + 1, index, output => do
      let v ← scalarDecode index e output
      let vs ← elemsDecode e count (index + 32) output
      pure (v :: vs)

/-- Modelled from the spec: `toGoType` — decode the value of type `t`
whose head slot starts at byte `index` of `output` (§4.4). -/
def toGoType (index : Nat) (t : AbiType) (output : List Byte) : Except Err Value :=
  match t with
  | .arrayTy k e =>
      if index + 32 > output.length then .error (.truncated output.length (index + 32))
      else do
        let vs ← elemsDecode e k index output
        pure (.arrV vs)
  | t => scalarDecode index t output

/-- Modelled from the spec: the destination of an unpack, mirroring the
reflection kinds `method.go` inspects: a non-pointer value, a pointer to
a map, a pointer to a slice/array (its element slots, `none` =
untouched), a pointer to a struct (its named fields), or a pointer to a
single scalar slot (for `singleUnpack`). -/
inductive Dest : Type
  | notPtr
  | ptrMap
  | ptrSeq (slots : List (Option Value))
  | ptrStruct (fields : List (String × Option Value))
  | ptrSingle (slot : Option Value)
deriving Repr

/-- The outcome of an unpack: success (with the updated destination), an
error (with the destination at the moment of the error), or a Go
runtime panic. -/
inductive Outcome : Type
  | ok (d : Dest)
  | err (e : Err) (d : Dest)
  | panicked
deriving Repr

/-- The capitalization used for struct-field matching (source line 308:
`strings.ToUpper(o.Name[:1]) + o.Name[1:]`): first code unit
upper-cased, remainder unchanged. -/
def capitalize (s : String) : String :=
  match s.data with
  | [] => s
  | c :: cs => String.mk (c.toUpper :: cs)

/-- The struct branch of `tupleUnpack`: walk the fields, assigning the
decoded value to each field whose name equals the capitalized argument
name.  Evaluating `o.Name[:1]` on an empty name panics in Go, which is
signalled here by `none`; with no fields the loop body never runs. -/
def structAssign (fields : List (String × Option Value)) (argName : String)
    (v : Value) : Option (List (String × Option Value)) :=
  match fields with
  | [] => some []
  | (fn, fv) :: rest =>
    if argName.data = [] then none
    else
      let fv' := if fn = capitalize argName then some v else fv
      (structAssign rest argName v).map (fun r => (fn, fv') :: r)

/-- Modelled from the spec: `requireUnpackKind` — structs are accepted,
slices/arrays must already have at least `outs.length` elements, every
other destination kind is rejected (*cannot unmarshal tuple into ...*). -/
def requireUnpackKind (d : Dest) (outs : List Argument) : Option Err :=
  match d with
  | .ptrStruct _ => none
  | .ptrSeq slots =>
      if slots.length < outs.length then
        some (.insufficientElements outs.length slots.length)
      else none
  | _ => some .unpackKind

/-- Writing the decoded value into the destination (the `switch kind`
of the source, identical in both variants): struct fields are matched by
capitalized name, sequence destinations are written at index `i`, any
other kind falls through the switch untouched. -/
def destWrite (d : Dest) (i : Nat) (argName : String) (v : Value) : Option Dest :=
  match d with
  | .ptrStruct fields => (structAssign fields argName v).map .ptrStruct
  | .ptrSeq slots => some (.ptrSeq (slots.set i (some v)))
  | d => some d

/-- The output loop of the FIRST `tupleUnpack` variant in the repository
(source lines 99-132): decode at `(i+j)*32`, then for a fixed array add
`Type.Size - 1` to `j`, then write. -/
def unpackLoopA (bs : List Byte) :
    List Argument → Nat → Nat → Dest → Outcome
  | [], _, _, d => .ok d
  | o :: rest, i, j, d =>
    match toGoType ((i + j) * 32) o.type bs with
    | .error e => .err e d
    | .ok v =>
      let j' := if isArrayTy o.type then j + (arraySize o.type - 1) else j
      match destWrite d i o.name v with
      | none => .panicked
      | some d' => unpackLoopA bs rest (i + 1) j' d'

/-- The output loop of the SECOND `tupleUnpack` variant in the
repository (source lines 291-323): for a fixed array first add
`Type.Size` to `j`, then decode at `(i+j)*32`, then write. -/
def unpackLoopB (bs : List Byte) :
    List Argument → Nat → Nat → Dest → Outcome
  | [], _, _, d => .ok d
  | o :: rest, i, j, d =>
    let j' := if isArrayTy o.type then j + arraySize o.type else j
    match toGoType ((i + j') * 32) o.type bs with
    | .error e => .err e d
    | .ok v =>
      match destWrite d i o.name v with
      | none => .panicked
      | some d' => unpackLoopB bs rest (i + 1) j' d'

/-- The first `tupleUnpack` variant (source lines 83-134): pointer
check, destination-kind check, then the decode loop. -/
def Method.tupleUnpackA (m : Method) (d : Dest) (bs : List Byte) : Outcome :=
  match d with
  | .notPtr => .err .nonPointer .notPtr
  | d =>
    match requireUnpackKind d m.outputs with
    | some e => .err e d
    | none => unpackLoopA bs m.outputs 0 0 d

/-- The second `tupleUnpack` variant (source lines 275-325): identical
except for the cursor arithmetic in the loop. -/
def Method.tupleUnpackB (m : Method) (d : Dest) (bs : List Byte) : Outcome :=
  match d with
  | .notPtr => .err .nonPointer .notPtr
  | d =>
    match requireUnpackKind d m.outputs with
    | some e => .err e d
    | none => unpackLoopB bs m.outputs 0 0 d

/-- The source's `Method.singleUnpack` (lines 329-343): pointer check, decode
`Outputs[0]` at offset 0 and set the destination slot (indexing an
empty `Outputs` would panic). -/
def Method.singleUnpack (m : Method) (d : Dest) (bs : List Byte) : Outcome :=
  match d with
  | .notPtr => .err .nonPointer .notPtr
  | d =>
    match m.outputs with
    | [] => .panicked
    | o :: _ =>
      match toGoType 0 o.type bs with
      | .error e => .err e d
      | .ok v =>
        match d with
        | .ptrSingle _ => .ok (.ptrSingle (some v))
        | d => .ok d

/-- Modelled from the spec: `Type.String` — the canonical textual form
of a type (§3 `stringForm`). -/
def typeString : AbiType → String
  | .uintTy b => "uint" ++ toString b
  | .intTy b => "int" ++ toString b
  | .boolTy => "bool"
  | .addressTy => "address"
  | .fixedBytesTy n => "bytes" ++ toString n
  | .bytesTy => "bytes"
  | .stringTy => "string"
  | .arrayTy k e => typeString e ++ "[" ++ toString k ++ "]"

/-- The source's `Method.Sig` (lines 352-358): name, then the canonical input
type strings joined by commas, in parentheses. -/
def Method.Sig (m : Method) : String :=
  m.name ++ "(" ++ String.intercalate ("," : String) (m.inputs.map (fun i => typeString i.type)) ++ ")"

/-- ASCII bytes of a string (ABI signatures are ASCII). -/
def strBytes (s : String) : List Byte := s.data.map Char.toNat

/-- The source's `Method.Id` (lines 381-383): the first 4 bytes of Keccak-256
of the signature.  Keccak-256 is an external collaborator (§1 of the
specification), so it is passed in as a function. -/
def Method.Id (keccak : List Byte → List Byte) (m : Method) : List Byte :=
  (keccak (strBytes m.Sig)).take 4

/-- Modelled from the spec: the base-token rule of the type parser
(§4.1) — bare `uint`/`int` canonicalize to 256 bits, sized tokens carry
their width. -/
def parseBaseType (s : String) : Option AbiType :=
  if s = "address" then some .addressTy
  else if s = "bool" then some .boolTy
  else if s = "string" then some .stringTy
  else if s = "bytes" then some .bytesTy
  else if s = "uint" then some (.uintTy 256)
  else if s = "int" then some (.intTy 256)
  else if s.startsWith ("uint" : String) then
    (s.drop 4).toNat?.bind (fun n =>
      if 0 < n ∧ n ≤ 256 ∧ n % 8 = 0 then some (.uintTy n) else none)
  else if s.startsWith ("int" : String) then
    (s.drop 3).toNat?.bind (fun n =>
      if 0 < n ∧ n ≤ 256 ∧ n % 8 = 0 then some (.intTy n) else none)
  else if s.startsWith ("bytes" : String) then
    (s.drop 5).toNat?.bind (fun n =>
      if 1 ≤ n ∧ n ≤ 32 then some (.fixedBytesTy n) else none)
  else none

/-! ## Concrete test vectors (from the event unpack test in the repository) -/

/-- The schema of the non-indexed inputs of
`LogStaticArray(uint256[3] indexed a, uint256[3] b, string c)`. -/
def schemaSA : List Argument := [⟨"b", .arrayTy 3 (.uintTy 256)⟩, ⟨"c", .stringTy⟩]

/-- A method carrying the `LogStaticArray` non-indexed schema. -/
def mSA : Method := ⟨"LogStaticArray", false, schemaSA, schemaSA⟩

/-- The test file's `staticArrayEventData`: words 4, 5, 6, then offset
`0x80`, then length 3, then `"abc"` right-padded. -/
def saData : List Byte :=
  beWord 4 ++ beWord 5 ++ beWord 6 ++ beWord 0x80 ++ beWord 3 ++
    ([0x61, 0x62, 0x63] ++ List.replicate 29 0)

/-- The values `([4,5,6], "abc")` for the `LogStaticArray` schema. -/
def vsSA : List Value :=
  [.arrV [.uintV 4, .uintV 5, .uintV 6], .strV [0x61, 0x62, 0x63]]

/-- What `Method.pack` actually produces on `vsSA` (offset word 64, not
128, because the offset base counts 32 bytes per input). -/
def packedSA : List Byte :=
  beWord 4 ++ beWord 5 ++ beWord 6 ++ beWord 64 ++ beWord 3 ++
    ([0x61, 0x62, 0x63] ++ List.replicate 29 0)

/-! ## Byte and word lemmas -/

theorem natToBE_length (k n : Nat) : (natToBE k n).length = k := by
  induction k generalizing n with
  | zero => rfl
  | succ k ih => simp [natToBE, ih]

theorem beWord_length (n : Nat) : (beWord n).length = 32 := natToBE_length 32 n

theorem bytesToNat_natToBE (k n : Nat) : bytesToNat (natToBE k n) = n % 256 ^ k := by
  induction k generalizing n with
  | zero => simp [natToBE, bytesToNat]; omega
  | succ k ih =>
      have h : bytesToNat (natToBE k (n / 256) ++ [n % 256]) =
          bytesToNat (natToBE k (n / 256)) * 256 + n % 256 := by
        unfold bytesToNat
        rw [List.foldl_append]
        rfl
      rw [natToBE, h, ih]
      have hm : n % (256 * 256 ^ k) = n % 256 + 256 * (n / 256 % 256 ^ k) := Nat.mod_mul
      have hp : (256 : Nat) ^ (k + 1) = 256 * 256 ^ k := by ring
      rw [hp, hm]
      ring

theorem bytesToNat_beWord (n : Nat) : bytesToNat (beWord n) = n % 2 ^ 256 := by
  have h : (256 : Nat) ^ 32 = 2 ^ 256 := by norm_num
  rw [beWord, bytesToNat_natToBE, h]

theorem bytesToNat_beWord_of_lt {n : Nat} (h : n < 2 ^ 256) :
    bytesToNat (beWord n) = n := by
  rw [bytesToNat_beWord, Nat.mod_eq_of_lt h]

theorem rightPad32_eq (bs : List Byte) :
    rightPad32 bs = bs ++ List.replicate ((32 - bs.length % 32) % 32) 0 := rfl

theorem rightPad32_take (bs : List Byte) : (rightPad32 bs).take bs.length = bs := by
  rw [rightPad32_eq, List.take_left]

theorem rightPad32_length (bs : List Byte) :
    (rightPad32 bs).length = bs.length + (32 - bs.length % 32) % 32 := by
  simp [rightPad32_eq]

/-! ## Packed scalars are single words -/

theorem packValue_eq_packScalar {t : AbiType} (h : isArrayTy t = false) (v : Value) :
    packValue t v = packScalar t v := by
  cases t <;> simp [isArrayTy] at h ⊢ <;> rfl

theorem packScalar_length {t : AbiType} {v : Value} {p : List Byte}
    (hdyn : lengthPrefixed t = false) (hwf : t.wf = true)
    (hp : packScalar t v = some p) : p.length = 32 := by
  cases t <;> cases v <;>
    simp only [packScalar, lengthPrefixed, AbiType.wf] at hp hdyn hwf <;>
    first
    | exact Option.noConfusion hp
    | exact Bool.noConfusion hdyn
    | skip
  case uintTy.uintV bits n =>
    split at hp
    · have h := Option.some.inj hp
      subst h
      exact beWord_length n
    · exact Option.noConfusion hp
  case intTy.intV bits z =>
    split at hp
    · have h := Option.some.inj hp
      subst h
      exact beWord_length _
    · exact Option.noConfusion hp
  case boolTy.boolV b =>
    have h := Option.some.inj hp
    subst h
    exact beWord_length _
  case addressTy.addrV a =>
    split at hp
    case isTrue ha =>
      have h := Option.some.inj hp
      subst h
      simp [ha]
    case isFalse => exact Option.noConfusion hp
  case fixedBytesTy.fbytesV nb a =>
    split at hp
    case isTrue ha =>
      have h := Option.some.inj hp
      subst h
      simp [ha.1]
      omega
    case isFalse => exact Option.noConfusion hp

/-! ## Decoding a packed scalar from its head slot -/

set_option maxRecDepth 100000 in
theorem toGoType_static {t : AbiType} {v : Value} {p : List Byte}
    (harr : isArrayTy t = false) (hdyn : lengthPrefixed t = false)
    (hwf : t.wf = true) (hp : packValue t v = some p)
    {idx : Nat} {bs suf : List Byte} (hd : bs.drop idx = p ++ suf) :
    toGoType idx t bs = .ok v := by
  rw [packValue_eq_packScalar harr] at hp
  have hplen : p.length = 32 := packScalar_length hdyn hwf hp
  have hdl : (bs.drop idx).length = bs.length - idx := List.length_drop idx bs
  rw [hd] at hdl
  simp only [List.length_append, hplen] at hdl
  have hbound : ¬ (idx + 32 > bs.length) := by omega
  have hword : (bs.drop idx).take 32 = p := by
    rw [hd]
    exact List.take_left' hplen
  cases t <;> simp only [isArrayTy, lengthPrefixed] at harr hdyn <;> cases v <;>
    simp only [packScalar] at hp <;>
    first
    | exact Option.noConfusion hp
    | exact Bool.noConfusion hdyn
    | skip
  case uintTy.uintV bits n =>
    split at hp
    case isTrue hn =>
      have hinj := Option.some.inj hp
      subst hinj
      have hb : bits ≤ 256 := by
        simp only [AbiType.wf, Bool.and_eq_true, decide_eq_true_eq] at hwf
        exact hwf.1.2
      have hn' : n < 2 ^ 256 :=
        lt_of_lt_of_le hn (Nat.pow_le_pow_right (by norm_num) hb)
      simp only [toGoType, scalarDecode, hbound, if_false, hword,
        bytesToNat_beWord_of_lt hn']
    case isFalse => exact Option.noConfusion hp
  case intTy.intV bits z =>
    split at hp
    case isTrue hz =>
      have hinj := Option.some.inj hp
      subst hinj
      have hb : bits ≤ 256 := by
        simp only [AbiType.wf, Bool.and_eq_true, decide_eq_true_eq] at hwf
        exact hwf.1.2
      have hA : (2 : Int) ^ (bits - 1) ≤ 2 ^ 255 :=
        pow_le_pow_right₀ (by norm_num) (by omega)
      have h2 : (2 : Int) ^ 256 = 2 * 2 ^ 255 := by ring
      have hzlo : -(2 : Int) ^ 255 ≤ z := le_trans (by omega) hz.1
      have hzhi : z < (2 : Int) ^ 255 := lt_of_lt_of_le hz.2 hA
      have hm0 : (0 : Int) ≤ z % 2 ^ 256 := Int.emod_nonneg z (by norm_num)
      have hm1 : z % (2 : Int) ^ 256 < 2 ^ 256 := Int.emod_lt_of_pos z (by positivity)
      have hN : ((z % (2 : Int) ^ 256).toNat : Int) = z % 2 ^ 256 :=
        Int.toNat_of_nonneg hm0
      have hNlt : (z % (2 : Int) ^ 256).toNat < 2 ^ 256 := by
        have hc : ((2 : Nat) ^ 256 : Int) = (2 : Int) ^ 256 := by norm_cast
        omega
      have hsplit : z % (2 : Int) ^ 256 = z ∨ z % (2 : Int) ^ 256 = z + 2 ^ 256 := by
        rcases le_or_lt 0 z with hz0 | hz0
        · left; exact Int.emod_eq_of_lt hz0 (by omega)
        · right
          have he : (z + 2 ^ 256 * 1) % (2 : Int) ^ 256 = z % 2 ^ 256 :=
            Int.add_mul_emod_self_left z (2 ^ 256) 1
          have he2 : (z + 2 ^ 256 : Int) % 2 ^ 256 = z + 2 ^ 256 :=
            Int.emod_eq_of_lt (by omega) (by omega)
          omega
      have hcast : ((2 : Nat) ^ 255 : Int) = (2 : Int) ^ 255 := by norm_cast
      have hcast6 : ((2 : Nat) ^ 256 : Int) = (2 : Int) ^ 256 := by norm_cast
      simp only [toGoType, scalarDecode, hbound, if_false, hword,
        bytesToNat_beWord_of_lt hNlt]
      rcases hsplit with hcase | hcase
      · have hpos : (z % (2 : Int) ^ 256).toNat < 2 ^ 255 := by omega
        rw [if_pos hpos]
        have : ((z % (2 : Int) ^ 256).toNat : Int) = z := by omega
        rw [this]
      · have hneg : ¬ ((z % (2 : Int) ^ 256).toNat < 2 ^ 255) := by omega
        rw [if_neg hneg]
        have : ((z % (2 : Int) ^ 256).toNat : Int) - 2 ^ 256 = z := by omega
        rw [this]
    case isFalse => exact Option.noConfusion hp
  case boolTy.boolV b =>
    have hinj := Option.some.inj hp
    subst hinj
    cases b <;>
      simp only [toGoType, scalarDecode, hbound, if_false, hword] <;>
      norm_num [bytesToNat_beWord]
  case addressTy.addrV a =>
    split at hp
    case isTrue ha =>
      have hinj := Option.some.inj hp
      subst hinj
      simp only [toGoType, scalarDecode, hbound, if_false, hword]
      rw [List.drop_left' (by simp)]
    case isFalse => exact Option.noConfusion hp
  case fixedBytesTy.fbytesV nb a =>
    split at hp
    case isTrue ha =>
      have hinj := Option.some.inj hp
      subst hinj
      simp only [toGoType, scalarDecode, hbound, if_false, hword]
      rw [List.take_left' ha.1]
    case isFalse => exact Option.noConfusion hp

/-! ## Decoding a dynamic value through its offset word -/

theorem readDynamic_ok {idx off : Nat} {bs s tl : List Byte}
    (hword : (bs.drop idx).take 32 = beWord off)
    (hoff : off < 2 ^ 256) (hslen : s.length < 2 ^ 256)
    (htail : bs.drop off = beWord s.length ++ (rightPad32 s ++ tl)) :
    readDynamic idx bs = .ok s := by
  have hdl : (bs.drop off).length = bs.length - off := List.length_drop off bs
  rw [htail] at hdl
  simp only [List.length_append, beWord_length, rightPad32_length] at hdl
  have hoffset : bytesToNat ((bs.drop idx).take 32) = off := by
    rw [hword]; exact bytesToNat_beWord_of_lt hoff
  have hlenword : (bs.drop off).take 32 = beWord s.length := by
    rw [htail]; exact List.take_left' (beWord_length _)
  have hlenval : bytesToNat ((bs.drop off).take 32) = s.length := by
    rw [hlenword]; exact bytesToNat_beWord_of_lt hslen
  have hpayload : bs.drop (off + 32) = rightPad32 s ++ tl := by
    have hdd : (bs.drop off).drop 32 = bs.drop (off + 32) := List.drop_drop 32 off bs
    rw [← hdd, htail, List.drop_left' (beWord_length _)]
  simp only [readDynamic]
  rw [hoffset, hlenval]
  rw [if_neg (by omega), if_neg (by omega)]
  rw [hpayload, rightPad32_eq, List.append_assoc, List.take_left' rfl]

theorem toGoType_dynamic {t : AbiType} {v : Value} {p : List Byte}
    (hdyn : lengthPrefixed t = true) (hp : packValue t v = some p)
    {idx off : Nat} {bs tl : List Byte}
    (hword : (bs.drop idx).take 32 = beWord off)
    (hidx : idx + 32 ≤ bs.length)
    (hoff : off < 2 ^ 256) (hplen : p.length < 2 ^ 256)
    (htail : bs.drop off = p ++ tl) :
    toGoType idx t bs = .ok v := by
  have hbound : ¬ (idx + 32 > bs.length) := by omega
  cases t <;> simp only [lengthPrefixed] at hdyn <;> cases v <;>
    simp only [packValue, packScalar] at hp <;>
    first
    | exact Option.noConfusion hp
    | exact Bool.noConfusion hdyn
    | skip
  case bytesTy.bytesV a =>
    have hinj := Option.some.inj hp
    subst hinj
    have halen : a.length < 2 ^ 256 := by
      have := rightPad32_length a
      simp only [List.length_append, beWord_length, rightPad32_length] at hplen
      omega
    have hread : readDynamic idx bs = .ok a :=
      readDynamic_ok hword hoff halen (by rw [htail, List.append_assoc])
    simp only [toGoType, scalarDecode, hbound, if_false, hread]
    rfl
  case stringTy.strV a =>
    have hinj := Option.some.inj hp
    subst hinj
    have halen : a.length < 2 ^ 256 := by
      simp only [List.length_append, beWord_length, rightPad32_length] at hplen
      omega
    have hread : readDynamic idx bs = .ok a :=
      readDynamic_ok hword hoff halen (by rw [htail, List.append_assoc])
    simp only [toGoType, scalarDecode, hbound, if_false, hread]
    rfl

/-! ## The closed form of `Method.pack`: head then tail -/

theorem packLoop_ok {n : Nat} :
    ∀ (ps : List (Argument × Value)) (ret var bs : List Byte),
      packLoop n ps ret var = .ok bs →
      ∃ h t, headOf n var.length ps = some h ∧ tailOf ps = some t ∧
        bs = ret ++ h ++ (var ++ t) := by
  intro ps
  induction ps with
  | nil =>
      intro ret var bs hok
      simp only [packLoop] at hok
      exact ⟨[], [], rfl, rfl, by simpa using (Except.ok.inj hok).symm⟩
  | cons pr rest ih =>
      intro ret var bs hok
      obtain ⟨input, a⟩ := pr
      simp only [packLoop] at hok
      cases hpv : packValue input.type a with
      | none => rw [hpv] at hok; exact Except.noConfusion hok
      | some packed =>
          rw [hpv] at hok
          dsimp only at hok
          by_cases hL : lengthPrefixed input.type
          · rw [if_pos hL] at hok
            obtain ⟨h', t', hh', ht', hbs⟩ := ih _ _ _ hok
            simp only [List.length_append] at hh'
            refine ⟨packNum (n * 32 + var.length) ++ h', packed ++ t', ?_, ?_, ?_⟩
            · simp only [headOf, hpv, Option.some_bind, if_pos hL, hh',
                Option.bind_eq_bind]
              rfl
            · simp only [tailOf, hpv, Option.some_bind, ht', if_pos hL,
                Option.bind_eq_bind]
              rfl
            · rw [hbs]; simp [List.append_assoc]
          · rw [if_neg hL] at hok
            obtain ⟨h', t', hh', ht', hbs⟩ := ih _ _ _ hok
            refine ⟨packed ++ h', t', ?_, ?_, ?_⟩
            · simp only [headOf, hpv, Option.some_bind, if_neg hL, hh',
                Option.bind_eq_bind]
              rfl
            · simp only [tailOf, hpv, Option.some_bind, ht', if_neg hL,
                Option.bind_eq_bind]
              rfl
            · rw [hbs]; simp [List.append_assoc]

/-- Every slot of the head is exactly 32 bytes when no input is a fixed
array, so the head is `32 × arity` bytes long. -/
theorem headOf_length {n : Nat} :
    ∀ (ps : List (Argument × Value)) (tl : Nat) (h : List Byte),
      headOf n tl ps = some h →
      (∀ pr ∈ ps, isArrayTy (pr.1).type = false ∧ (pr.1).type.wf = true) →
      h.length = 32 * ps.length := by
  intro ps
  induction ps with
  | nil =>
      intro tl h hh _
      cases hh
      rfl
  | cons pr rest ih =>
      intro tl h hh hstat
      obtain ⟨input, a⟩ := pr
      simp only [headOf, Option.bind_eq_bind] at hh
      cases hpv : packValue input.type a with
      | none => rw [hpv] at hh; exact Option.noConfusion hh
      | some p =>
          rw [hpv, Option.some_bind] at hh
          have hfirst := hstat (input, a) (List.mem_cons_self _ _)
          by_cases hL : lengthPrefixed input.type
          · rw [if_pos hL] at hh
            cases hh' : headOf n (tl + p.length) rest with
            | none => rw [hh'] at hh; exact Option.noConfusion hh
            | some h' =>
                rw [hh', Option.some_bind] at hh
                have hinj := Option.some.inj hh
                subst hinj
                have := ih (tl + p.length) h' hh'
                  (fun pr hpr => hstat pr (List.mem_cons_of_mem _ hpr))
                simp only [List.length_append, this, packNum, beWord_length,
                  List.length_cons]
                ring
          · rw [if_neg hL] at hh
            cases hh' : headOf n tl rest with
            | none => rw [hh'] at hh; exact Option.noConfusion hh
            | some h' =>
                rw [hh', Option.some_bind] at hh
                have hinj := Option.some.inj hh
                subst hinj
                have hlen32 : p.length = 32 := by
                  have hps : packScalar input.type a = some p := by
                    rw [← packValue_eq_packScalar hfirst.1]; exact hpv
                  exact packScalar_length
                    (Bool.of_not_eq_true hL ▸ rfl) hfirst.2 hps
                have := ih tl h' hh'
                  (fun pr hpr => hstat pr (List.mem_cons_of_mem _ hpr))
                simp only [List.length_append, this, hlen32, List.length_cons]
                ring

/-! ## Sequential writes into a sequence destination -/

/-- The cumulative effect of the per-slot `slots.set i (some v)` writes
of the unpack loop, starting at index `k`. -/
def setAll (slots : List (Option Value)) (k : Nat) : List Value → List (Option Value)
  | [] => slots
  | v :: vs => setAll (slots.set k (some v)) (k + 1) vs

theorem set_length_append {α : Type} (pre : List α) (x y : α) (l : List α) :
    (pre ++ x :: l).set pre.length y = pre ++ y :: l := by
  induction pre with
  | nil => rfl
  | cons a pre ih => simpa [List.set] using ih

theorem setAll_append :
    ∀ (vs : List Value) (pre rest : List (Option Value)),
      rest.length = vs.length →
      setAll (pre ++ rest) pre.length vs = pre ++ vs.map some := by
  intro vs
  induction vs with
  | nil =>
      intro pre rest h
      cases rest with
      | nil => simp [setAll]
      | cons r rest' => exact absurd h (by simp)
  | cons v vs ih =>
      intro pre rest h
      cases rest with
      | nil => exact absurd h (by simp)
      | cons r rest' =>
          simp only [setAll]
          rw [set_length_append]
          have hstep : pre ++ some v :: rest' = (pre ++ [some v]) ++ rest' := by
            simp
          have hlen : pre.length + 1 = (pre ++ [some v]).length := by simp
          rw [hstep, hlen, ih (pre ++ [some v]) rest' (by simpa using h)]
          simp

theorem setAll_replicate (vs : List Value) :
    setAll (List.replicate vs.length none) 0 vs = vs.map some := by
  have h := setAll_append vs [] (List.replicate vs.length none) (by simp)
  simpa using h

/-! ## The no-fixed-array round trip of the unpack loop -/

theorem unpackLoopB_ok {bs : List Byte} {n : Nat} (hbs : bs.length < 2 ^ 256) :
    ∀ (ps : List (Argument × Value)) (k : Nat) (slots : List (Option Value))
      (prevTail hk tk : List Byte),
      headOf n prevTail.length ps = some hk →
      tailOf ps = some tk →
      bs.drop (32 * k) = hk ++ (prevTail ++ tk) →
      k + ps.length = n →
      (∀ pr ∈ ps, isArrayTy (pr.1).type = false ∧ (pr.1).type.wf = true) →
      unpackLoopB bs (ps.map Prod.fst) k 0 (.ptrSeq slots) =
        .ok (.ptrSeq (setAll slots k (ps.map Prod.snd))) := by
  intro ps
  induction ps with
  | nil =>
      intro k slots prevTail hk tk hh ht hd hn hstat
      simp [unpackLoopB, setAll]
  | cons pr rest ih =>
      intro k slots prevTail hk tk hh ht hd hn hstat
      obtain ⟨input, a⟩ := pr
      have hfirst := hstat (input, a) (List.mem_cons_self _ _)
      have hfa : isArrayTy input.type = false := hfirst.1
      have hwfa : input.type.wf = true := hfirst.2
      have hrest : ∀ pr ∈ rest, isArrayTy (pr.1).type = false ∧ (pr.1).type.wf = true :=
        fun pr hpr => hstat pr (List.mem_cons_of_mem _ hpr)
      -- destructure headOf and tailOf at the first slot
      simp only [headOf, tailOf, Option.bind_eq_bind] at hh ht
      cases hpv : packValue input.type a with
      | none => rw [hpv] at hh; exact Option.noConfusion hh
      | some p =>
          rw [hpv, Option.some_bind] at hh ht
          -- length bookkeeping for the whole remaining head
          have hkl : hk.length = 32 * (rest.length + 1) := by
            have hh0 : headOf n prevTail.length ((input, a) :: rest) = some hk := by
              simp only [headOf, Option.bind_eq_bind, hpv, Option.some_bind]
              exact hh
            simpa using headOf_length _ _ _ hh0 hstat
          have hdl : (bs.drop (32 * k)).length = bs.length - 32 * k :=
            List.length_drop _ _
          rw [hd] at hdl
          simp only [List.length_append] at hdl
          have hblen : bs.length = 32 * k + hk.length + prevTail.length + tk.length := by
            omega
          cases ht' : tailOf rest with
          | none =>
              rw [ht'] at ht
              simp only [Option.none_bind] at ht
              exact Option.noConfusion ht
          | some t' =>
          rw [ht', Option.some_bind] at ht
          by_cases hL : lengthPrefixed input.type
          · -- dynamic slot: offset word in the head, payload in the tail
            rw [if_pos hL] at hh ht
            cases hh' : headOf n (prevTail.length + p.length) rest with
            | none => rw [hh'] at hh; exact Option.noConfusion hh
            | some h' =>
            rw [hh', Option.some_bind] at hh
            have hkeq := Option.some.inj hh
            have htkeq := Option.some.inj ht
            subst hkeq
            subst htkeq
            simp only [List.length_append, List.length_cons, packNum,
              beWord_length] at hdl hkl hblen hn
            have hword : (bs.drop (32 * k)).take 32 =
                beWord (n * 32 + prevTail.length) := by
              rw [hd, List.append_assoc]
              exact List.take_left' (beWord_length _)
            have htail : bs.drop (n * 32 + prevTail.length) = p ++ t' := by
              have hdd : (bs.drop (32 * k)).drop
                  ((packNum (n * 32 + prevTail.length) ++ h').length +
                    prevTail.length) = bs.drop (n * 32 + prevTail.length) := by
                rw [List.drop_drop]
                congr 1
                simp only [List.length_append, packNum, beWord_length]
                omega
              rw [← hdd, hd]
              rw [show (packNum (n * 32 + prevTail.length) ++ h') ++
                  (prevTail ++ (p ++ t')) =
                  ((packNum (n * 32 + prevTail.length) ++ h') ++ prevTail) ++
                    (p ++ t') by simp [List.append_assoc]]
              exact List.drop_left' (by simp only [List.length_append])
            have hdec : toGoType (k * 32) input.type bs = .ok a := by
              rw [Nat.mul_comm k 32]
              exact toGoType_dynamic hL hpv hword (by omega) (by omega)
                (by omega) htail
            simp only [List.map_cons, unpackLoopB, hfa, Bool.false_eq_true,
              if_false, Nat.add_zero, Nat.zero_add, destWrite]
            rw [hdec]
            have hnext := ih (k + 1) (slots.set k (some a)) (prevTail ++ p) h' t'
              (by simpa using hh')
              ht'
              (by
                have hdd : (bs.drop (32 * k)).drop 32 = bs.drop (32 * (k + 1)) := by
                  rw [show 32 * (k + 1) = 32 * k + 32 by ring]
                  exact List.drop_drop 32 (32 * k) bs
                rw [← hdd, hd,
                  show (packNum (n * 32 + prevTail.length) ++ h') ++
                      (prevTail ++ (p ++ t')) =
                    packNum (n * 32 + prevTail.length) ++
                      (h' ++ ((prevTail ++ p) ++ t')) by simp [List.append_assoc],
                  List.drop_left' (by simp [packNum, beWord_length])])
              (by omega)
              hrest
            simpa [setAll] using hnext
          · -- static slot: the value itself sits in the head
            rw [if_neg hL] at hh ht
            cases hh' : headOf n prevTail.length rest with
            | none => rw [hh'] at hh; exact Option.noConfusion hh
            | some h' =>
            rw [hh', Option.some_bind] at hh
            have hkeq := Option.some.inj hh
            have htkeq := Option.some.inj ht
            subst hkeq
            subst htkeq
            simp only [List.length_append, List.length_cons, packNum,
              beWord_length] at hdl hkl hblen hn
            have hplen32 : p.length = 32 := by
              have hps : packScalar input.type a = some p := by
                rw [← packValue_eq_packScalar hfa]; exact hpv
              exact packScalar_length (by simp at hL; exact hL) hwfa hps
            have hdec : toGoType (k * 32) input.type bs = .ok a := by
              rw [Nat.mul_comm k 32]
              exact toGoType_static hfa (by simp at hL; exact hL) hwfa
                hpv (show bs.drop (32 * k) = p ++ (h' ++ (prevTail ++ t')) by
                  rw [hd]; simp [List.append_assoc])
            simp only [List.map_cons, unpackLoopB, hfa, Bool.false_eq_true,
              if_false, Nat.add_zero, Nat.zero_add, destWrite]
            rw [hdec]
            have hnext := ih (k + 1) (slots.set k (some a)) prevTail h' t'
              hh'
              ht'
              (by
                have hdd : (bs.drop (32 * k)).drop 32 = bs.drop (32 * (k + 1)) := by
                  rw [show 32 * (k + 1) = 32 * k + 32 by ring]
                  exact List.drop_drop 32 (32 * k) bs
                rw [← hdd, hd,
                  show (p ++ h') ++ (prevTail ++ t') =
                    p ++ (h' ++ (prevTail ++ t')) by simp [List.append_assoc]]
                rw [← hplen32]
                exact List.drop_left' rfl)
              (by omega)
              hrest
            simpa [setAll] using hnext

/-! ## The two loop variants agree when no output is a fixed array -/

theorem unpackLoop_agree (bs : List Byte) :
    ∀ (outs : List Argument) (i j : Nat) (d : Dest),
      (∀ o ∈ outs, isArrayTy o.type = false) →
      unpackLoopA bs outs i j d = unpackLoopB bs outs i j d := by
  intro outs
  induction outs with
  | nil => intro i j d _; rfl
  | cons o rest ih =>
      intro i j d hstat
      have ho : isArrayTy o.type = false := hstat o (List.mem_cons_self _ _)
      simp only [unpackLoopA, unpackLoopB, ho, Bool.false_eq_true, if_false]
      cases toGoType ((i + j) * 32) o.type bs with
      | error e => rfl
      | ok v =>
          dsimp only
          cases destWrite d i o.name v with
          | none => rfl
          | some d' =>
              exact ih (i + 1) j d'
                (fun o' ho' => hstat o' (List.mem_cons_of_mem _ ho'))

/-! ## `packLoop` never signals an arity mismatch -/

theorem packLoop_ne_arity {n : Nat} :
    ∀ (ps : List (Argument × Value)) (ret var : List Byte) (g w : Nat),
      packLoop n ps ret var ≠ .error (.arityMismatch g w) := by
  intro ps
  induction ps with
  | nil => intro ret var g w h; exact Except.noConfusion h
  | cons pr rest ih =>
      intro ret var g w h
      obtain ⟨input, a⟩ := pr
      simp only [packLoop] at h
      cases hpv : packValue input.type a with
      | none =>
          rw [hpv] at h
          dsimp only at h
          have := Except.error.inj h
          exact Err.noConfusion this
      | some packed =>
          rw [hpv] at h
          dsimp only at h
          by_cases hL : lengthPrefixed input.type
          · rw [if_pos hL] at h; exact ih _ _ _ _ h
          · rw [if_neg hL] at h; exact ih _ _ _ _ h

/-! ## Struct-field assignment -/

theorem String.data_ne_nil {s : String} (h : s ≠ "") : s.data ≠ [] := by
  intro hd
  exact h (String.ext hd)

theorem structAssign_eq (fields : List (String × Option Value))
    (name : String) (v : Value) (h : name ≠ "") :
    structAssign fields name v =
      some (fields.map fun f =>
        (f.1, if f.1 = capitalize name then some v else f.2)) := by
  induction fields with
  | nil => rfl
  | cons f rest ih =>
      obtain ⟨fn, fv⟩ := f
      simp only [structAssign, String.data_ne_nil h, if_false, ih,
        Option.map_some', List.map_cons]

theorem unpackLoopB_struct_no_panic (bs : List Byte) :
    ∀ (outs : List Argument) (i j : Nat)
      (fields : List (String × Option Value)),
      (∀ o ∈ outs, o.name ≠ "") →
      unpackLoopB bs outs i j (.ptrStruct fields) ≠ .panicked := by
  intro outs
  induction outs with
  | nil => intro i j fields _ h; exact Outcome.noConfusion h
  | cons o rest ih =>
      intro i j fields hnames h
      have ho : o.name ≠ "" := hnames o (List.mem_cons_self _ _)
      simp only [unpackLoopB] at h
      cases hdec : toGoType ((i + if isArrayTy o.type = true then
          j + arraySize o.type else j) * 32) o.type bs with
      | error e =>
          rw [hdec] at h
          exact Outcome.noConfusion h
      | ok v =>
          rw [hdec] at h
          dsimp only at h
          rw [show destWrite (.ptrStruct fields) i o.name v =
              some (.ptrStruct (fields.map fun f =>
                (f.1, if f.1 = capitalize o.name then some v else f.2))) by
            simp [destWrite, structAssign_eq fields o.name v ho]] at h
          dsimp only at h
          exact ih _ _ _ (fun o' ho' => hnames o' (List.mem_cons_of_mem _ ho')) h

/-! ## The pack/unpack round trip (no fixed arrays) -/

theorem pack_unpack_roundTrip (m : Method) (vs : List Value) (bs : List Byte)
    (hio : m.outputs = m.inputs)
    (hstat : ∀ a ∈ m.inputs, isArrayTy a.type = false ∧ a.type.wf = true)
    (hbs : bs.length < 2 ^ 256)
    (hok : m.pack vs = .ok bs) :
    m.tupleUnpackB (.ptrSeq (List.replicate m.inputs.length none)) bs =
        .ok (.ptrSeq (vs.map some)) ∧
    (∀ a0 v0, m.inputs = [a0] → vs = [v0] →
        m.singleUnpack (.ptrSingle none) bs = .ok (.ptrSingle (some v0))) := by
  have hlen : vs.length = m.inputs.length := by
    by_contra hne
    rw [Method.pack, if_neg hne] at hok
    exact Except.noConfusion hok
  rw [Method.pack, if_pos hlen] at hok
  obtain ⟨h, t, hh, ht, hbs_eq⟩ := packLoop_ok _ _ _ _ hok
  simp only [List.length_nil] at hh
  have hbs_ht : bs = h ++ t := by simpa using hbs_eq
  have hzip_len : (m.inputs.zip vs).length = m.inputs.length := by
    simp [List.length_zip, hlen]
  have hfst : (m.inputs.zip vs).map Prod.fst = m.inputs :=
    List.map_fst_zip _ _ (by omega)
  have hsnd : (m.inputs.zip vs).map Prod.snd = vs :=
    List.map_snd_zip _ _ (by omega)
  have hstat' : ∀ pr ∈ m.inputs.zip vs,
      isArrayTy (pr.1).type = false ∧ (pr.1).type.wf = true := by
    intro pr hpr
    obtain ⟨x, y⟩ := pr
    exact hstat x (List.of_mem_zip hpr).1
  constructor
  · have hloop := unpackLoopB_ok hbs (m.inputs.zip vs) 0
      (List.replicate m.inputs.length none) [] h t
      (by simpa using hh) ht
      (by simp [hbs_ht])
      (by omega)
      hstat'
    rw [hfst, hsnd] at hloop
    have hsetall : setAll (List.replicate m.inputs.length none) 0 vs =
        vs.map some := by
      rw [← hlen]; exact setAll_replicate vs
    rw [hsetall] at hloop
    simp only [Method.tupleUnpackB, requireUnpackKind, hio,
      List.length_replicate, lt_irrefl, if_false]
    exact hloop
  · intro a0 v0 hin hvs
    subst hvs
    have hfa : isArrayTy a0.type = false := (hstat a0 (by rw [hin]; simp)).1
    have hwfa : a0.type.wf = true := (hstat a0 (by rw [hin]; simp)).2
    have hzip1 : m.inputs.zip [v0] = [(a0, v0)] := by rw [hin]; rfl
    have hn1 : m.inputs.length = 1 := by rw [hin]; rfl
    rw [hzip1, hn1] at hh
    rw [hzip1] at ht
    simp only [headOf, tailOf, Option.bind_eq_bind] at hh ht
    cases hpv : packValue a0.type v0 with
    | none => rw [hpv] at hh; exact Option.noConfusion hh
    | some p =>
        rw [hpv, Option.some_bind] at hh ht
        have hbslen : bs.length = h.length + t.length := by
          rw [hbs_ht]; simp
        by_cases hL : lengthPrefixed a0.type
        · rw [if_pos hL] at hh
          rw [Option.some_bind] at ht
          rw [if_pos hL] at ht
          simp only [Option.some_bind] at hh
          have hheq := Option.some.inj hh
          have hteq := Option.some.inj ht
          subst hheq
          subst hteq
          have hbs2 : bs = beWord (1 * 32 + 0) ++ (p ++ []) := by
            simpa [packNum] using hbs_ht
          have hword : (bs.drop 0).take 32 = beWord 32 := by
            rw [List.drop_zero, hbs2]
            have h32 : (1 : Nat) * 32 + 0 = 32 := by norm_num
            rw [h32]
            exact List.take_left' (beWord_length _)
          have hblen2 : bs.length = 32 + p.length := by
            rw [hbs2]; simp [beWord_length]
          have htail : bs.drop 32 = p ++ [] := by
            rw [hbs2]
            have h32 : (1 : Nat) * 32 + 0 = 32 := by norm_num
            rw [h32]
            exact List.drop_left' (beWord_length _)
          have hdec : toGoType 0 a0.type bs = .ok v0 :=
            toGoType_dynamic hL hpv hword (by omega) (by norm_num)
              (by omega) htail
          simp only [Method.singleUnpack, hio, hin, hdec]
        · rw [if_neg hL] at hh
          rw [Option.some_bind] at ht
          rw [if_neg hL] at ht
          simp only [Option.some_bind] at hh
          have hheq := Option.some.inj hh
          have hteq := Option.some.inj ht
          subst hheq
          subst hteq
          have hdec : toGoType 0 a0.type bs = .ok v0 :=
            toGoType_static hfa (by simp at hL; exact hL) hwfa hpv
              (show bs.drop 0 = p ++ ([] : List Byte) by
                rw [List.drop_zero, hbs_ht]; simp)
          simp only [Method.singleUnpack, hio, hin, hdec]

/-! ## Further concrete vectors: the `Pledge` event schema -/

/-- The 20 bytes of `0x00Ce0d46d924CC8437c806721496599FC3FFA268`. -/
def addrP : List Byte :=
  [0x00, 0xCe, 0x0d, 0x46, 0xd9, 0x24, 0xCC, 0x84, 0x37, 0xc8,
   0x06, 0x72, 0x14, 0x96, 0x59, 0x9F, 0xC3, 0xFF, 0xA2, 0x68]

/-- The `Pledge(address who, uint128 wad, bytes3 currency)` schema as a
method (all inputs static, no fixed arrays). -/
def mP : Method :=
  ⟨"Pledge", false,
    [⟨"who", .addressTy⟩, ⟨"wad", .uintTy 128⟩, ⟨"currency", .fixedBytesTy 3⟩],
    [⟨"who", .addressTy⟩, ⟨"wad", .uintTy 128⟩, ⟨"currency", .fixedBytesTy 3⟩]⟩

/-- The values of the `Pledge` test vector: the address above,
2218516807680 and `"usd"`. -/
def vsP : List Value :=
  [.addrV addrP, .uintV 2218516807680, .fbytesV [0x75, 0x73, 0x64]]

/-- The test file's `pledgeData1`: the three static words. -/
def packedP : List Byte :=
  (List.replicate 12 0 ++ addrP) ++ beWord 2218516807680 ++
    ([0x75, 0x73, 0x64] ++ List.replicate 29 0)

/-- The head of `packedSA` according to the per-slot contribution rule
(the array contributes 96 bytes, the string an offset word). -/
def headSA : List Byte := beWord 4 ++ beWord 5 ++ beWord 6 ++ beWord 64

/-- The tail of `packedSA`: length word and padded payload of `"abc"`. -/
def tailSA : List Byte := beWord 3 ++ ([0x61, 0x62, 0x63] ++ List.replicate 29 0)

/-! ## Claim theorems -/

set_option maxRecDepth 1000000 in
/-- C1 (counterexample): the round trip `decode(S, encode(S, vs)) = vs`
fails as stated: for the schema `(uint256[3], string)` and the values
`([4,5,6], "abc")`, `Method.pack` succeeds, but decoding its output with
the cited `tupleUnpack` (second variant) does not give the values back —
the offset word `64` points into the middle of the multi-word head. -/
theorem roundTrip_counterexample :
    mSA.pack vsSA = .ok packedSA ∧
    mSA.tupleUnpackB (.ptrSeq [none, none]) packedSA ≠
      .ok (.ptrSeq (vsSA.map some)) := by
  constructor
  · rfl
  · intro hcontra
    rw [show mSA.tupleUnpackB (.ptrSeq [none, none]) packedSA =
        .err (.truncated 192 67108899)
          (.ptrSeq [some (.arrV [.uintV 64, .uintV 3,
            .uintV (0x616263 * 256 ^ 29)]), none]) from rfl] at hcontra
    exact Outcome.noConfusion hcontra

/-- C1 (amended): for every schema with no fixed-array argument, with
well-formed types, and every value list the encoder accepts (producing
fewer than `2^256` bytes), decoding the bytes produced by `Method.pack`
via the second `tupleUnpack` variant over the same schema yields the
values again, and `singleUnpack` does as well when the arity is 1. -/
theorem roundTrip_noFixedArray (m : Method) (vs : List Value) (bs : List Byte)
    (hio : m.outputs = m.inputs)
    (hstat : ∀ a ∈ m.inputs, isArrayTy a.type = false ∧ a.type.wf = true)
    (hbs : bs.length < 2 ^ 256)
    (hok : m.pack vs = .ok bs) :
    m.tupleUnpackB (.ptrSeq (List.replicate m.inputs.length none)) bs =
        .ok (.ptrSeq (vs.map some)) ∧
    (∀ a0 v0, m.inputs = [a0] → vs = [v0] →
        m.singleUnpack (.ptrSingle none) bs = .ok (.ptrSingle (some v0))) :=
  pack_unpack_roundTrip m vs bs hio hstat hbs hok

set_option maxRecDepth 1000000 in
/-- C1 (witness): the round trip at the `Pledge` schema and test values. -/
theorem roundTrip_noFixedArray_witness :
    mP.tupleUnpackB (.ptrSeq (List.replicate mP.inputs.length none)) packedP =
      .ok (.ptrSeq (vsP.map some)) :=
  (roundTrip_noFixedArray mP vsP packedP rfl (by decide) (by decide) (by rfl)).1

set_option maxRecDepth 1000000 in
/-- C2 (counterexample): the two `tupleUnpack` variants are not
extensionally equal: on the `LogStaticArray` schema and the test buffer
`staticArrayEventData` the first variant succeeds with `[4,5,6]` and
`"abc"` while the second returns a truncation error. -/
theorem tupleUnpack_variants_differ :
    mSA.tupleUnpackA (.ptrSeq [none, none]) saData ≠
      mSA.tupleUnpackB (.ptrSeq [none, none]) saData := by
  intro hcontra
  rw [show mSA.tupleUnpackA (.ptrSeq [none, none]) saData =
      .ok (.ptrSeq [some (.arrV [.uintV 4, .uintV 5, .uintV 6]),
        some (.strV [0x61, 0x62, 0x63])]) from rfl,
    show mSA.tupleUnpackB (.ptrSeq [none, none]) saData =
      .err (.truncated 192 67108899)
        (.ptrSeq [some (.arrV [.uintV 128, .uintV 3,
          .uintV (0x616263 * 256 ^ 29)]), none]) from rfl] at hcontra
  exact Outcome.noConfusion hcontra

/-- C2 (amended): the two `tupleUnpack` variants agree on every schema
that contains no fixed-array (`ArrayTy`) output, for every destination
and every byte buffer. -/
theorem tupleUnpack_variants_agree (m : Method) (d : Dest) (bs : List Byte)
    (hstat : ∀ o ∈ m.outputs, isArrayTy o.type = false) :
    m.tupleUnpackA d bs = m.tupleUnpackB d bs := by
  cases d with
  | notPtr => rfl
  | ptrMap =>
      simp only [Method.tupleUnpackA, Method.tupleUnpackB]
      cases requireUnpackKind .ptrMap m.outputs with
      | some e => rfl
      | none => exact unpackLoop_agree bs m.outputs 0 0 _ hstat
  | ptrSeq slots =>
      simp only [Method.tupleUnpackA, Method.tupleUnpackB]
      cases requireUnpackKind (.ptrSeq slots) m.outputs with
      | some e => rfl
      | none => exact unpackLoop_agree bs m.outputs 0 0 _ hstat
  | ptrStruct fields =>
      simp only [Method.tupleUnpackA, Method.tupleUnpackB]
      cases requireUnpackKind (.ptrStruct fields) m.outputs with
      | some e => rfl
      | none => exact unpackLoop_agree bs m.outputs 0 0 _ hstat
  | ptrSingle slot =>
      simp only [Method.tupleUnpackA, Method.tupleUnpackB]
      cases requireUnpackKind (.ptrSingle slot) m.outputs with
      | some e => rfl
      | none => exact unpackLoop_agree bs m.outputs 0 0 _ hstat

/-- C2 (witness): agreement of the variants at the `Pledge` schema. -/
theorem tupleUnpack_variants_agree_witness :
    mP.tupleUnpackA (.ptrSeq [none, none, none]) packedP =
      mP.tupleUnpackB (.ptrSeq [none, none, none]) packedP :=
  tupleUnpack_variants_agree mP (.ptrSeq [none, none, none]) packedP (by decide)

set_option maxRecDepth 1000000 in
/-- C3 (counterexample): the head emitted by `Method.pack` is not
`32 × arity` bytes long: on `(uint256[3], string)` the per-slot
contributions (direct encoding for the static array, offset word for the
string) make a 128-byte head for arity 2, even though the offset word is
computed from `32 × arity = 64`. -/
theorem pack_head_size_counterexample :
    mSA.pack vsSA = .ok packedSA ∧
    headOf mSA.inputs.length 0 (mSA.inputs.zip vsSA) = some headSA ∧
    tailOf (mSA.inputs.zip vsSA) = some tailSA ∧
    packedSA = headSA ++ tailSA ∧
    headSA.length ≠ 32 * mSA.inputs.length := by
  refine ⟨by rfl, by rfl, by rfl, by rfl, by decide⟩

/-- C3 (amended): `Method.pack` emits the head in declaration order
(static slots contribute their direct encoding, dynamic slots a 32-byte
offset word whose value is `32 × (number of inputs)` plus the tail bytes
accumulated so far) with all tail payloads appended after the head in
slot order; the head length equals `32 × arity` when no input is a
fixed array (for a fixed array the head is wider). -/
theorem pack_headTail_layout (m : Method) (args : List Value) (bs : List Byte)
    (hok : m.pack args = .ok bs) :
    ∃ h t, headOf m.inputs.length 0 (m.inputs.zip args) = some h ∧
      tailOf (m.inputs.zip args) = some t ∧ bs = h ++ t ∧
      ((∀ a ∈ m.inputs, isArrayTy a.type = false ∧ a.type.wf = true) →
        h.length = 32 * m.inputs.length) := by
  have hlen : args.length = m.inputs.length := by
    by_contra hne
    rw [Method.pack, if_neg hne] at hok
    exact Except.noConfusion hok
  rw [Method.pack, if_pos hlen] at hok
  obtain ⟨h, t, hh, ht, hbs_eq⟩ := packLoop_ok _ _ _ _ hok
  simp only [List.length_nil] at hh
  refine ⟨h, t, hh, ht, by simpa using hbs_eq, ?_⟩
  intro hstat
  have hstat' : ∀ pr ∈ m.inputs.zip args,
      isArrayTy (pr.1).type = false ∧ (pr.1).type.wf = true := by
    intro pr hpr
    obtain ⟨x, y⟩ := pr
    exact hstat x (List.of_mem_zip hpr).1
  have hzl : (m.inputs.zip args).length = m.inputs.length := by
    simp [List.length_zip, hlen]
  rw [← hzl]
  exact headOf_length _ _ _ hh hstat'

set_option maxRecDepth 1000000 in
/-- C3 (witness): the layout decomposition at the `Pledge` schema. -/
theorem pack_headTail_layout_witness :
    ∃ h t, headOf mP.inputs.length 0 (mP.inputs.zip vsP) = some h ∧
      tailOf (mP.inputs.zip vsP) = some t ∧ packedP = h ++ t ∧
      ((∀ a ∈ mP.inputs, isArrayTy a.type = false ∧ a.type.wf = true) →
        h.length = 32 * mP.inputs.length) :=
  pack_headTail_layout mP vsP packedP (by rfl)

/-- C4: `Method.Sig` is the name followed by the parenthesized,
comma-joined canonical input type strings; `Method.Id` is the first 4
bytes of Keccak-256 (supplied externally) of that signature; the
canonical forms render bare `uint`/`int` as `uint256`/`int256`. -/
theorem sig_id_canonical :
    (∀ m : Method, m.Sig =
      m.name ++ "(" ++
        String.intercalate ("," : String) (m.inputs.map (fun i => typeString i.type)) ++ ")") ∧
    (∀ (keccak : List Byte → List Byte) (m : Method),
      m.Id keccak = (keccak (strBytes m.Sig)).take 4) ∧
    typeString (.uintTy 256) = "uint256" ∧
    typeString (.intTy 256) = "int256" ∧
    parseBaseType ("uint" : String) = some (.uintTy 256) ∧
    parseBaseType ("int" : String) = some (.intTy 256) :=
  ⟨fun _ => rfl, fun _ _ => rfl, by decide, by decide, by decide, by decide⟩

set_option maxRecDepth 1000000 in
/-- C5: decoding `staticArrayEventData` against the non-indexed schema
`(uint256[3] b, string c)` with the first `tupleUnpack` variant yields
`b = [4,5,6]` and `c = "abc"`: the fixed array occupies three
consecutive head slots and the string's offset word is read three words
later. -/
theorem staticArrayEvent_decode :
    mSA.tupleUnpackA (.ptrSeq [none, none]) saData =
      .ok (.ptrSeq [some (.arrV [.uintV 4, .uintV 5, .uintV 6]),
        some (.strV [0x61, 0x62, 0x63])]) := rfl

/-- C6: unpacking any schema into an ordered-sequence destination that
is shorter than the arity fails with the insufficient-elements error
(want = arity, got = length) in both `tupleUnpack` variants, and the
destination is returned untouched. -/
theorem tupleUnpack_insufficient (m : Method) (slots : List (Option Value))
    (bs : List Byte) (hshort : slots.length < m.outputs.length) :
    m.tupleUnpackA (.ptrSeq slots) bs =
      .err (.insufficientElements m.outputs.length slots.length) (.ptrSeq slots) ∧
    m.tupleUnpackB (.ptrSeq slots) bs =
      .err (.insufficientElements m.outputs.length slots.length) (.ptrSeq slots) := by
  constructor <;>
    simp only [Method.tupleUnpackA, Method.tupleUnpackB, requireUnpackKind,
      if_pos hshort]

/-- C6 (witness): arity 3 into a length-2 sequence reports want 3,
got 2. -/
theorem tupleUnpack_insufficient_witness :
    mP.tupleUnpackB (.ptrSeq [none, none]) packedP =
      .err (.insufficientElements 3 2) (.ptrSeq [none, none]) :=
  (tupleUnpack_insufficient mP [none, none] packedP (by decide)).2

/-- C7: for every schema and buffer, both `tupleUnpack` variants and
`singleUnpack` fail with the non-pointer error on a destination that is
not a pointer, and the destination is returned unchanged with no bytes
decoded. -/
theorem unpack_nonPointer (m : Method) (bs : List Byte) :
    m.tupleUnpackA .notPtr bs = .err .nonPointer .notPtr ∧
    m.tupleUnpackB .notPtr bs = .err .nonPointer .notPtr ∧
    m.singleUnpack .notPtr bs = .err .nonPointer .notPtr :=
  ⟨rfl, rfl, rfl⟩

/-- C8: `Method.pack` returns the arity-mismatch error exactly when the
argument count differs from the declared input count; when the counts
match it proceeds to the per-argument packing loop (which never signals
an arity mismatch). -/
theorem pack_arity (m : Method) (args : List Value) :
    (args.length = m.inputs.length →
      m.pack args = packLoop m.inputs.length (m.inputs.zip args) [] []) ∧
    (args.length ≠ m.inputs.length →
      m.pack args = .error (.arityMismatch args.length m.inputs.length)) ∧
    ((∃ g w, m.pack args = .error (.arityMismatch g w)) ↔
      args.length ≠ m.inputs.length) := by
  refine ⟨fun he => by rw [Method.pack, if_pos he],
    fun hne => by rw [Method.pack, if_neg hne], ?_, ?_⟩
  · rintro ⟨g, w, hgw⟩ he
    rw [Method.pack, if_pos he] at hgw
    exact packLoop_ne_arity _ _ _ _ _ hgw
  · intro hne
    exact ⟨args.length, m.inputs.length, by rw [Method.pack, if_neg hne]⟩

/-- C8 (witness): zero arguments against the 3-input `Pledge` schema. -/
theorem pack_arity_witness :
    mP.pack [] = .error (.arityMismatch 0 3) :=
  (pack_arity mP []).2.1 (by decide)

/-- C9: when `tupleUnpack` writes into a struct, a decoded value for a
(nonempty-named) argument `s` is assigned exactly to the fields whose
name equals `s` with its first code unit upper-cased and the remainder
unchanged; an argument matching no field is skipped silently (all other
fields keep their values), and the struct walk never panics. -/
theorem struct_field_matching :
    (∀ (fields : List (String × Option Value)) (name : String) (v : Value),
      name ≠ "" →
      structAssign fields name v =
        some (fields.map fun f =>
          (f.1, if f.1 = capitalize name then some v else f.2))) ∧
    (∀ (m : Method) (fields : List (String × Option Value)) (bs : List Byte),
      (∀ o ∈ m.outputs, o.name ≠ "") →
      m.tupleUnpackB (.ptrStruct fields) bs ≠ .panicked) := by
  constructor
  · exact structAssign_eq
  · intro m fields bs hnames
    simp only [Method.tupleUnpackB, requireUnpackKind]
    exact unpackLoopB_struct_no_panic bs m.outputs 0 0 fields hnames

/-- C9 (witness): `"value"` capitalizes to `"Value"` and is assigned to
exactly that field, leaving the other field untouched. -/
theorem struct_field_matching_witness :
    structAssign [("Value", none), ("Other", some (.uintV 1))] "value"
        (.uintV 7) =
      some [("Value", some (.uintV 7)), ("Other", some (.uintV 1))] := by
  rw [struct_field_matching.1 [("Value", none), ("Other", some (.uintV 1))]
    ("value" : String) (.uintV 7) (by decide)]
  rfl

/-- C10 (implicit): the field-matching step slices `Name[:1]` without a
non-emptiness check, so when the loop of either `tupleUnpack` variant
reaches an output argument whose name is the empty string (its head slot
decoding succeeding) and the struct destination has at least one field,
the unpack panics instead of returning an error. -/
theorem emptyName_struct_panics :
    (∀ (t : AbiType) (rest : List Argument) (i j : Nat) (bs : List Byte)
      (fields : List (String × Option Value)) (v : Value),
      fields ≠ [] →
      toGoType ((i + j) * 32) t bs = .ok v →
      unpackLoopA bs (⟨"", t⟩ :: rest) i j (.ptrStruct fields) = .panicked) ∧
    (∀ (t : AbiType) (rest : List Argument) (i j : Nat) (bs : List Byte)
      (fields : List (String × Option Value)) (v : Value),
      fields ≠ [] →
      toGoType ((i + (if isArrayTy t = true then j + arraySize t else j)) * 32)
          t bs = .ok v →
      unpackLoopB bs (⟨"", t⟩ :: rest) i j (.ptrStruct fields) = .panicked) := by
  constructor
  · intro t rest i j bs fields v hfne hdec
    cases fields with
    | nil => exact absurd rfl hfne
    | cons f fs =>
        simp only [unpackLoopA]
        rw [hdec]
        rfl
  · intro t rest i j bs fields v hfne hdec
    cases fields with
    | nil => exact absurd rfl hfne
    | cons f fs =>
        simp only [unpackLoopB]
        rw [hdec]
        rfl

/-- C10 (witness): a single empty-named `uint256` output, a one-field
struct and a one-word buffer panic in both variants. -/
theorem emptyName_struct_panics_witness :
    unpackLoopA (beWord 7) [⟨"", .uintTy 256⟩] 0 0
        (.ptrStruct [("X", none)]) = .panicked ∧
    unpackLoopB (beWord 7) [⟨"", .uintTy 256⟩] 0 0
        (.ptrStruct [("X", none)]) = .panicked :=
  ⟨emptyName_struct_panics.1 (.uintTy 256) [] 0 0 (beWord 7) [("X", none)]
      (.uintV 7) (List.cons_ne_nil _ _) (by rfl),
    emptyName_struct_panics.2 (.uintTy 256) [] 0 0 (beWord 7) [("X", none)]
      (.uintV 7) (List.cons_ne_nil _ _) (by rfl)⟩

end Abi
